import Mathlib

/-!
Verification of the sort-based aggregate task specification
(`SortAggregateTaskSpec` in
`python/ray/data/_internal/planner/exchange/aggregate_task_spec.py`).

The block representation and the aggregate-function capabilities are
external collaborators of this module; they are modelled from the spec
(section 6 of the design document), while the three methods `map`,
`reduce` and `_prune_unused_columns` are translated from the source.
-/

/-- A row of a columnar block: an association list from column name to an
integer cell value.  Key values and aggregate states are modelled as
integers, which carry the linear order the boundaries need. -/
abbrev Row := List (String × Int)

/-- Look up a column in a row; absent columns read as 0.  Models reading a
cell from the underlying columnar representation. -/
def Row.get (r : Row) (c : String) : Int :=
  ((r.find? (fun p => p.1 = c)).map Prod.snd).getD 0

/-- A block: either a columnar table block (the `TableBlockAccessor` case,
column names plus rows) or a non-columnar block with no table accessor. -/
inductive Block where
  | table (columns : List String) (rows : List Row)
  | nonColumnar (id : Nat)
deriving DecidableEq, Repr

/-- Column names of a block (empty for a non-columnar block). -/
def Block.columns : Block → List String
  | .table cs _ => cs
  | .nonColumnar _ => []

/-- Rows of a block (empty for a non-columnar block). -/
def Block.rows : Block → List Row
  | .table _ rs => rs
  | .nonColumnar _ => []

/-- Whether the accessor for this block is a `TableBlockAccessor`. -/
def Block.isTable : Block → Bool
  | .table _ _ => true
  | .nonColumnar _ => false

/-- Number of rows of a block (`BlockAccessor.num_rows`). -/
def Block.numRows (b : Block) : Nat := b.rows.length

/-- Modelled from the spec: `select(columns)`, projection of a table block
onto exactly the given columns. -/
def Block.select (b : Block) (cols : List String) : Block :=
  Block.table cols (b.rows.map (fun r => cols.map (fun c => (c, Row.get r c))))

/-- The grouping key argument of `map` and `reduce`: Python `None`, a single
column name, a list of column names, or an opaque callable key function. -/
inductive GroupKey where
  | absent
  | col (c : String)
  | cols (cs : List String)
  | fn (id : Nat)
deriving DecidableEq, Repr

/-- Modelled from the spec: the `AggregateFn` capability as this module sees
it.  `count` is a pure row-counting aggregate (`Count` and not an
on-key aggregate with a string accessor); `onCol c` is an
`_AggregateOnKeyBase` whose `_key_fn` is the plain column name `c`; `other`
is any remaining aggregate (opaque accessor, not a pure count). -/
inductive AggregateFn where
  | count
  | onCol (c : String)
  | other
deriving DecidableEq, Repr

/-- Add a column name to the needed-column collection if not yet present
(the Python code uses a `set`; the claims only depend on membership). -/
def insertCol (cs : List String) (c : String) : List String :=
  if c ∈ cs then cs else cs ++ [c]

/-- One step of the aggregate loop of `_prune_unused_columns`: an on-key
aggregate with a string accessor adds its column; a pure count adds
nothing; any other aggregate clears the prune flag. -/
def aggStep (acc : Bool × List String) (a : AggregateFn) : Bool × List String :=
  match a with
  | .onCol c => (acc.1, insertCol acc.2 c)
  | .count => acc
  | .other => (false, acc.2)

/-- The key-inspection prefix of `_prune_unused_columns`: a string key adds
itself, a list key adds all its members, a callable key clears the prune
flag, and an absent key adds nothing. -/
def keyInit (key : GroupKey) : Bool × List String :=
  match key with
  | .absent => (true, [])
  | .col c => (true, [c])
  | .cols l => (true, l.foldl insertCol [])
  | .fn _ => (false, [])

/-- The column names a key contributes to the needed set. -/
def keyColumns : GroupKey → List String
  | .absent => []
  | .col c => [c]
  | .cols l => l
  | .fn _ => []

/-- The needed-column collection computed by `_prune_unused_columns`. -/
def neededColumns (key : GroupKey) (aggs : List AggregateFn) : List String :=
  (aggs.foldl aggStep (keyInit key)).2

namespace SortAggregateTaskSpec

/-- `SortAggregateTaskSpec._prune_unused_columns`: prune unused columns from
the block before aggregation, degrading to the identity whenever
eligibility cannot be shown. -/
def prune_unused_columns (block : Block) (key : GroupKey)
    (aggs : List AggregateFn) : Block :=
  let acc := aggs.foldl aggStep (keyInit key)
  if acc.1 && block.isTable && decide (0 < block.numRows) then
    block.select acc.2
  else
    block

end SortAggregateTaskSpec

/-- The sort key value of a row under a grouping key: a single-column key
reads that column; a composite key is represented by its first column
(the partition-range arguments never depend on this choice). -/
def keyOf (key : GroupKey) (r : Row) : Int :=
  match key with
  | .col c => Row.get r c
  | .cols cs => Row.get r (cs.headD "")
  | _ => 0

/-- Insert a row into a list already sorted by the key, keeping it sorted. -/
def insertSorted (k : Row → Int) (r : Row) : List Row → List Row
  | [] => [r]
  | x :: xs => if k r ≤ k x then r :: x :: xs else x :: insertSorted k r xs

/-- Sort rows by their key value (stable insertion sort). -/
def sortRows (k : Row → Int) (rs : List Row) : List Row :=
  rs.foldr (insertSorted k) []

/-- Lower bound check of partition `i`: `boundary[i-1] < k`, with a
conceptual minus-infinity sentinel at `i = 0`. -/
def lowerOk (bnd : List Int) (i : Nat) (k : Int) : Bool :=
  match i with
  | 0 => true
  | j + 1 => decide (bnd.getD j 0 < k)

/-- Upper bound check of partition `i`: `k ≤ boundary[i]`, with a
conceptual plus-infinity sentinel at `i = len(boundaries)`. -/
def upperOk (bnd : List Int) (i : Nat) (k : Int) : Bool :=
  if i < bnd.length then decide (k ≤ bnd.getD i 0) else true

/-- Modelled from the spec: `sort_and_partition(boundaries, key)` of the
block accessor.  Sorts the rows by key and emits `len(boundaries) + 1`
partitions in boundary order; partition `i` holds the rows whose key `k`
satisfies `boundary[i-1] < k ≤ boundary[i]`, and empty partitions are
still emitted. -/
def sortAndPartition (b : Block) (bnd : List Int) (key : GroupKey) : List Block :=
  let sorted := sortRows (keyOf key) b.rows
  (List.range (bnd.length + 1)).map (fun i =>
    Block.table b.columns
      (sorted.filter (fun r => lowerOk bnd i (keyOf key r)
        && upperOk bnd i (keyOf key r))))

/-- Group a row list into maximal runs of adjacent rows sharing a key value
(on sorted input these are exactly the per-key groups). -/
def groupRuns (f : Row → Int) : List Row → List (List Row)
  | [] => []
  | r :: rs =>
    match groupRuns f rs with
    | [] => [[r]]
    | g :: gs =>
      if f r = f (g.headD []) then (r :: g) :: gs else [r] :: g :: gs

/-- Modelled from the spec: the combinable state one aggregate accumulates
over the rows of one key group.  A count aggregate counts the rows; an
on-column aggregate folds the values of its column (summation stands in
for the opaque accumulate operation); the merge of two states is their
sum, which is associative and commutative as the spec requires. -/
def stateOf (a : AggregateFn) (g : List Row) : Int :=
  match a with
  | .count => g.length
  | .onCol c => (g.map (fun r => Row.get r c)).sum
  | .other => 0

/-- The cell name of the state of the aggregate at position `i`. -/
def stateCol (i : Nat) : String := "s" ++ toString i

/-- Modelled from the spec: `combine(key, aggs)` of the block accessor.
Groups adjacent rows sharing an equal key (a linear scan over the sorted
partition) and emits one partial-aggregate row per distinct key; when the
key is absent the whole block forms one group. -/
def combine (b : Block) (key : GroupKey) (aggs : List AggregateFn) : Block :=
  let groups : List (List Row) :=
    match key with
    | .absent => [b.rows]
    | _ => groupRuns (keyOf key) b.rows
  Block.table
    ("key" :: (List.range aggs.length).map stateCol)
    (groups.map (fun g =>
      ("key", keyOf key (g.headD []))
        :: ((List.range aggs.length).zip aggs).map
          (fun p => (stateCol p.1, stateOf p.2 g))))

/-- The statistics envelope attached to a block.  Execution timing is not
modelled (real time); the row count and a byte-size surrogate (cell count
plus header) are. -/
structure BlockMetadata where
  num_rows : Nat
  size_bytes : Nat
deriving DecidableEq, Repr

/-- Modelled from the spec: `get_metadata(exec_stats)` of the block
accessor, the statistics of the block it is called on. -/
def get_metadata (b : Block) : BlockMetadata :=
  { num_rows := b.rows.length
    size_bytes := b.columns.length + (b.rows.map List.length).sum }

/-- One output row of the merge-reduce step: a key, the merged per-aggregate
states, and whether the states have been finalized into output values. -/
structure OutRow where
  key : Int
  states : List Int
  finalized : Bool
deriving DecidableEq, Repr

/-- The output block of the merge-reduce step. -/
structure ReducedBlock where
  rows : List OutRow
deriving DecidableEq, Repr

/-- Modelled from the spec: `normalize_block_types(blocks, format)`, which
converts every input block to one uniform columnar representation and
preserves the count and order of the blocks. -/
def normalize_block_types (blocks : List Block) (_fmt : String) : List Block :=
  blocks.map (fun b => Block.table b.columns b.rows)

/-- Insert a key into a sorted duplicate-free key list. -/
def sortedInsert (k : Int) : List Int → List Int
  | [] => [k]
  | x :: xs =>
    if k < x then k :: x :: xs
    else if k = x then x :: xs
    else x :: sortedInsert k xs

/-- The distinct keys of a key list, in ascending order. -/
def distinctSortedKeys (ks : List Int) : List Int :=
  ks.foldr sortedInsert []

/-- Merge the partial states stored for aggregate position `i` across all
rows of one key group (merge is modelled as summation). -/
def mergedState (rows : List Row) (i : Nat) : Int :=
  (rows.map (fun r => Row.get r (stateCol i))).sum

/-- Modelled from the spec: `aggregate_combined_blocks(blocks, key, aggs,
finalize)` of the block accessor.  Merges the sorted key-deduplicated
input blocks by key, combining the partial states of a key that appears
in several blocks; emits one row per distinct key in sorted order, one
logical group when the key is absent, finalizing each row exactly when
the `finalize` flag is set; also returns the output metadata. -/
def aggregate_combined_blocks (blocks : List Block) (key : GroupKey)
    (aggs : List AggregateFn) (finalize : Bool) : ReducedBlock × BlockMetadata :=
  let allRows := (blocks.map Block.rows).flatten
  let groups : List (Int × List Row) :=
    match key with
    | .absent => [(0, allRows)]
    | _ =>
      (distinctSortedKeys (allRows.map (fun r => Row.get r "key"))).map
        (fun k => (k, allRows.filter (fun r => Row.get r "key" = k)))
  let rows : List OutRow := groups.map (fun g =>
    { key := g.1
      states := (List.range aggs.length).map (mergedState g.2)
      finalized := finalize })
  ({ rows := rows },
   { num_rows := rows.length, size_bytes := rows.length * (aggs.length + 1) })

namespace SortAggregateTaskSpec

/-- The partition list `map` aggregates: the whole pruned block as a single
partition when the key is absent, otherwise the sorted range partitions. -/
def partitionsOf (pruned : Block) (bnd : List Int) (key : GroupKey) : List Block :=
  match key with
  | .absent => [pruned]
  | _ => sortAndPartition pruned bnd key

/-- `SortAggregateTaskSpec.map`: prune unused columns, partition (or keep
the whole block when the key is absent), combine each partition into a
partial-aggregate block, and append the metadata of the (pruned) block.
`idx` and `output_num_blocks` are accepted and unused, as in the source. -/
def map (_idx : Nat) (block : Block) (_output_num_blocks : Nat)
    (boundaries : List Int) (key : GroupKey) (aggs : List AggregateFn) :
    List (Block ⊕ BlockMetadata) :=
  let block := prune_unused_columns block key aggs
  let partitions := partitionsOf block boundaries key
  partitions.map (fun p => Sum.inl (combine p key aggs))
    ++ [Sum.inr (get_metadata block)]

/-- `SortAggregateTaskSpec.reduce`: normalize the mapper outputs to the
batch format, then merge-aggregate them, finalizing exactly when
`partial_reduce` (here `pReduce`) is false.  Indexing the first
normalized block fails on an empty input, modelled as `none`. -/
def reduce (key : GroupKey) (aggs : List AggregateFn) (batch_format : String)
    (mapper_outputs : List Block) (pReduce : Bool) :
    Option (ReducedBlock × BlockMetadata) :=
  let normalized := normalize_block_types mapper_outputs batch_format
  match normalized with
  | [] => none
  | _ :: _ => some (aggregate_combined_blocks normalized key aggs (!pReduce))

end SortAggregateTaskSpec

/-! Helper lemmas. -/

theorem last_of_append_singleton {α : Type} (l : List α) (a : α) :
    (l ++ [a]).getLast? = some a := by
  rw [List.getLast?_concat]

theorem aggStep_fst_false (aggs : List AggregateFn) (cs : List String) :
    (aggs.foldl aggStep (false, cs)).1 = false := by
  induction aggs generalizing cs with
  | nil => rfl
  | cons a as ih =>
    cases a with
    | count => exact ih cs
    | onCol c => exact ih (insertCol cs c)
    | other => exact ih cs

theorem aggStep_fst_other_mem (aggs : List AggregateFn) (acc : Bool × List String)
    (h : AggregateFn.other ∈ aggs) : (aggs.foldl aggStep acc).1 = false := by
  induction aggs generalizing acc with
  | nil => cases h
  | cons a as ih =>
    rcases List.mem_cons.mp h with h1 | h2
    · cases h1
      exact aggStep_fst_false as acc.2
    · exact ih (aggStep acc a) h2

theorem aggStep_fst_no_other (aggs : List AggregateFn) (acc : Bool × List String)
    (h : AggregateFn.other ∉ aggs) : (aggs.foldl aggStep acc).1 = acc.1 := by
  induction aggs generalizing acc with
  | nil => rfl
  | cons a as ih =>
    have hne : AggregateFn.other ∉ as := fun m => h (List.mem_cons_of_mem _ m)
    cases a with
    | count => exact ih acc hne
    | onCol c => exact ih (acc.1, insertCol acc.2 c) hne
    | other => exact absurd (List.mem_cons_self _ _) h

theorem mem_insertCol (cs : List String) (c x : String) :
    x ∈ insertCol cs c ↔ x ∈ cs ∨ x = c := by
  unfold insertCol
  by_cases h : c ∈ cs
  · rw [if_pos h]
    constructor
    · exact Or.inl
    · rintro (hx | rfl)
      · exact hx
      · exact h
  · rw [if_neg h]
    simp [List.mem_append]

theorem mem_foldl_insertCol (l : List String) (acc : List String) (x : String) :
    x ∈ l.foldl insertCol acc ↔ x ∈ acc ∨ x ∈ l := by
  induction l generalizing acc with
  | nil => simp
  | cons c cs ih =>
    rw [List.foldl_cons, ih, mem_insertCol]
    simp [List.mem_cons]
    tauto

theorem mem_foldl_aggStep (aggs : List AggregateFn) (acc : Bool × List String)
    (x : String) :
    x ∈ (aggs.foldl aggStep acc).2 ↔ x ∈ acc.2 ∨ AggregateFn.onCol x ∈ aggs := by
  induction aggs generalizing acc with
  | nil => simp
  | cons a as ih =>
    rw [List.foldl_cons, ih]
    cases a with
    | count => simp [aggStep]
    | onCol c =>
      simp [aggStep, mem_insertCol, List.mem_cons]
      tauto
    | other => simp [aggStep]

theorem mem_keyInit (key : GroupKey) (x : String) :
    x ∈ (keyInit key).2 ↔ x ∈ keyColumns key := by
  cases key <;> simp [keyInit, keyColumns, mem_foldl_insertCol]

theorem mem_neededColumns (key : GroupKey) (aggs : List AggregateFn) (x : String) :
    x ∈ neededColumns key aggs ↔ x ∈ keyColumns key ∨ AggregateFn.onCol x ∈ aggs := by
  unfold neededColumns
  rw [mem_foldl_aggStep, mem_keyInit]

theorem keyInit_fst_true (key : GroupKey) (h : ∀ n, key ≠ GroupKey.fn n) :
    (keyInit key).1 = true := by
  cases key with
  | absent => rfl
  | col c => rfl
  | cols l => rfl
  | fn n => exact absurd rfl (h n)

theorem foldl_aggStep_all_count (aggs : List AggregateFn) (acc : Bool × List String)
    (h : ∀ a ∈ aggs, a = AggregateFn.count) : aggs.foldl aggStep acc = acc := by
  induction aggs generalizing acc with
  | nil => rfl
  | cons a as ih =>
    have ha := h a (List.mem_cons_self a as)
    cases ha
    exact ih acc (fun b hb => h b (List.mem_cons_of_mem _ hb))

/-! Claim theorems. -/

/-- Claim C1, counterexample: on a two-column block with key `a` and a count
aggregate, the metadata element returned by `map` is not the metadata of
the original input block, because pruning narrowed the block first. -/
theorem metadata_not_of_original_block :
    (SortAggregateTaskSpec.map 0 (Block.table ["a", "b"] [[("a", 1), ("b", 2)]]) 2
        [5] (GroupKey.col "a") [AggregateFn.count]).getLast?
      ≠ some (Sum.inr (get_metadata
          (Block.table ["a", "b"] [[("a", 1), ("b", 2)]]))) := by
  decide

/-- Claim C1, amended: the final element of the sequence returned by `map`
is the metadata of the pruned input block, not of the partitions. -/
theorem metadata_of_pruned_block (idx onb : Nat) (block : Block) (bnd : List Int)
    (key : GroupKey) (aggs : List AggregateFn) :
    (SortAggregateTaskSpec.map idx block onb bnd key aggs).getLast?
      = some (Sum.inr (get_metadata
          (SortAggregateTaskSpec.prune_unused_columns block key aggs))) :=
  last_of_append_singleton
    ((SortAggregateTaskSpec.partitionsOf
        (SortAggregateTaskSpec.prune_unused_columns block key aggs) bnd key).map
      (fun p => Sum.inl (combine p key aggs)))
    (Sum.inr (get_metadata
      (SortAggregateTaskSpec.prune_unused_columns block key aggs)))

/-- Claim C2: `map` returns the partial-aggregate partition blocks in
boundary order followed by the metadata as the single final element, and
the sequence has N + 1 elements with N = boundary count + 1 when the key
is present and N = 1 when the key is absent. -/
theorem map_output_shape (idx onb : Nat) (block : Block) (bnd : List Int)
    (key : GroupKey) (aggs : List AggregateFn) :
    SortAggregateTaskSpec.map idx block onb bnd key aggs
      = (SortAggregateTaskSpec.partitionsOf
            (SortAggregateTaskSpec.prune_unused_columns block key aggs) bnd key).map
          (fun p => Sum.inl (combine p key aggs))
        ++ [Sum.inr (get_metadata
            (SortAggregateTaskSpec.prune_unused_columns block key aggs))]
    ∧ (SortAggregateTaskSpec.map idx block onb bnd key aggs).length
        = (match key with
            | GroupKey.absent => 1
            | _ => bnd.length + 1) + 1 := by
  refine ⟨rfl, ?_⟩
  cases key <;>
    simp [SortAggregateTaskSpec.map, SortAggregateTaskSpec.partitionsOf,
      sortAndPartition]

/-- Claim C3: with an absent key `map` performs no sorting and no
partitioning; the whole pruned block is the single partition, so the
result is exactly one combined partition block followed by the
metadata. -/
theorem map_global_aggregation (idx onb : Nat) (block : Block) (bnd : List Int)
    (aggs : List AggregateFn) :
    SortAggregateTaskSpec.map idx block onb bnd GroupKey.absent aggs
      = [Sum.inl (combine
            (SortAggregateTaskSpec.prune_unused_columns block GroupKey.absent aggs)
            GroupKey.absent aggs),
         Sum.inr (get_metadata
            (SortAggregateTaskSpec.prune_unused_columns block GroupKey.absent aggs))] :=
  rfl

/-- Claim C8: `map` and `reduce` are deterministic functions of their
arguments; two invocations with identical arguments return identical
results. -/
theorem map_reduce_deterministic (idx onb : Nat) (block : Block) (bnd : List Int)
    (key : GroupKey) (aggs : List AggregateFn) (fmt : String) (bs : List Block)
    (pr : Bool) :
    SortAggregateTaskSpec.map idx block onb bnd key aggs
        = SortAggregateTaskSpec.map idx block onb bnd key aggs
    ∧ SortAggregateTaskSpec.reduce key aggs fmt bs pr
        = SortAggregateTaskSpec.reduce key aggs fmt bs pr :=
  ⟨rfl, rfl⟩

/-- Claim C9: `reduce` fails exactly on the empty collection of mapper
output blocks (it indexes the first normalized block), so a successful
call requires a non-empty input collection. -/
theorem reduce_none_iff_empty_input (key : GroupKey) (aggs : List AggregateFn)
    (fmt : String) (bs : List Block) (pr : Bool) :
    SortAggregateTaskSpec.reduce key aggs fmt bs pr = none ↔ bs = [] := by
  cases bs <;> simp [SortAggregateTaskSpec.reduce, normalize_block_types]

/-- Claim C5: pruning degrades to the identity whenever the key is an opaque
callable, some aggregate is neither an on-column aggregate nor a pure
count, the block is not a columnar table block, or the block has zero
rows. -/
theorem prune_noop_when_ineligible (block : Block) (key : GroupKey)
    (aggs : List AggregateFn)
    (h : (∃ n, key = GroupKey.fn n) ∨ AggregateFn.other ∈ aggs
      ∨ block.isTable = false ∨ block.numRows = 0) :
    SortAggregateTaskSpec.prune_unused_columns block key aggs = block := by
  rcases h with ⟨n, rfl⟩ | h | h | h
  · have hf : (aggs.foldl aggStep (keyInit (GroupKey.fn n))).1 = false :=
      aggStep_fst_false aggs []
    simp [SortAggregateTaskSpec.prune_unused_columns, hf]
  · have hf : (aggs.foldl aggStep (keyInit key)).1 = false :=
      aggStep_fst_other_mem aggs (keyInit key) h
    simp [SortAggregateTaskSpec.prune_unused_columns, hf]
  · simp [SortAggregateTaskSpec.prune_unused_columns, h]
  · simp [SortAggregateTaskSpec.prune_unused_columns, h]

/-- Witness for claim C5 at a concrete ineligible input: a non-columnar
block passes through pruning unchanged. -/
theorem prune_noop_when_ineligible_witness :
    SortAggregateTaskSpec.prune_unused_columns (Block.nonColumnar 0)
        (GroupKey.col "a") [AggregateFn.count]
      = Block.nonColumnar 0 :=
  prune_noop_when_ineligible (Block.nonColumnar 0) (GroupKey.col "a")
    [AggregateFn.count] (Or.inr (Or.inr (Or.inl rfl)))

/-- Claim C6: when the key is absent, a column name or a list of column
names, every aggregate is a pure count or reads a plain column, and the
block is a non-empty table block, pruning projects the block onto exactly
the needed columns: the key columns plus the column of every on-column
aggregate, with count aggregates contributing nothing. -/
theorem prune_projects_needed_columns (cs : List String) (rs : List Row)
    (key : GroupKey) (aggs : List AggregateFn)
    (hk : ∀ n, key ≠ GroupKey.fn n) (ha : AggregateFn.other ∉ aggs)
    (hr : rs ≠ []) :
    SortAggregateTaskSpec.prune_unused_columns (Block.table cs rs) key aggs
      = (Block.table cs rs).select (neededColumns key aggs)
    ∧ ∀ c, c ∈ neededColumns key aggs
        ↔ c ∈ keyColumns key ∨ AggregateFn.onCol c ∈ aggs := by
  refine ⟨?_, fun c => mem_neededColumns key aggs c⟩
  have h1 : (aggs.foldl aggStep (keyInit key)).1 = true := by
    rw [aggStep_fst_no_other aggs _ ha, keyInit_fst_true key hk]
  have h3 : 0 < rs.length := List.length_pos.mpr hr
  simp [SortAggregateTaskSpec.prune_unused_columns, h1, Block.isTable,
    Block.numRows, Block.rows, h3, neededColumns]

/-- Witness for claim C6 at a concrete eligible input: key column `a` plus
an on-column aggregate on `b` and a count, over a three-column block. -/
theorem prune_projects_needed_columns_witness :
    SortAggregateTaskSpec.prune_unused_columns
        (Block.table ["a", "b", "c"] [[("a", 1), ("b", 2), ("c", 3)]])
        (GroupKey.col "a") [AggregateFn.onCol "b", AggregateFn.count]
      = (Block.table ["a", "b", "c"] [[("a", 1), ("b", 2), ("c", 3)]]).select
          (neededColumns (GroupKey.col "a")
            [AggregateFn.onCol "b", AggregateFn.count])
    ∧ ("b" ∈ neededColumns (GroupKey.col "a")
          [AggregateFn.onCol "b", AggregateFn.count]
        ↔ "b" ∈ keyColumns (GroupKey.col "a")
          ∨ AggregateFn.onCol "b" ∈ [AggregateFn.onCol "b", AggregateFn.count]) :=
  ⟨(prune_projects_needed_columns ["a", "b", "c"] [[("a", 1), ("b", 2), ("c", 3)]]
      (GroupKey.col "a") [AggregateFn.onCol "b", AggregateFn.count]
      (fun n h => nomatch h) (by decide) (by decide)).1,
   (prune_projects_needed_columns ["a", "b", "c"] [[("a", 1), ("b", 2), ("c", 3)]]
      (GroupKey.col "a") [AggregateFn.onCol "b", AggregateFn.count]
      (fun n h => nomatch h) (by decide) (by decide)).2 "b"⟩

/-- Claim C10: when the key is absent and every aggregate is a pure count,
the needed column set is empty, yet pruning still applies on a non-empty
table block and projects it onto zero columns. -/
theorem prune_empty_needed_set (cs : List String) (rs : List Row)
    (aggs : List AggregateFn)
    (ha : ∀ a ∈ aggs, a = AggregateFn.count) (hr : rs ≠ []) :
    SortAggregateTaskSpec.prune_unused_columns (Block.table cs rs)
        GroupKey.absent aggs
      = (Block.table cs rs).select []
    ∧ (Block.table cs rs).select [] = Block.table [] (rs.map (fun _ => [])) := by
  refine ⟨?_, rfl⟩
  have h0 : aggs.foldl aggStep (keyInit GroupKey.absent) = (true, []) :=
    foldl_aggStep_all_count aggs _ ha
  have h3 : 0 < rs.length := List.length_pos.mpr hr
  simp [SortAggregateTaskSpec.prune_unused_columns, h0, Block.isTable,
    Block.numRows, Block.rows, h3]

/-- Witness for claim C10 at a concrete input: a count-only aggregation with
no key prunes a one-row block down to zero columns. -/
theorem prune_empty_needed_set_witness :
    SortAggregateTaskSpec.prune_unused_columns
        (Block.table ["a"] [[("a", 1)]]) GroupKey.absent [AggregateFn.count]
      = (Block.table ["a"] [[("a", 1)]]).select []
    ∧ (Block.table ["a"] [[("a", 1)]]).select []
      = Block.table [] ([[("a", 1)]].map (fun _ => ([] : Row))) :=
  prune_empty_needed_set ["a"] [[("a", 1)]] [AggregateFn.count]
    (by decide) (by decide)

/-- Claim C4: every output row of a successful `reduce` is finalized exactly
when `partial_reduce` is false; with `partial_reduce` true the rows keep
combinable partial state.  The finalize flag `reduce` hands to the merge
step is the negation of `partial_reduce`. -/
theorem reduce_finalize_flag (key : GroupKey) (aggs : List AggregateFn)
    (fmt : String) (bs : List Block) (pr : Bool)
    (out : ReducedBlock × BlockMetadata)
    (h : SortAggregateTaskSpec.reduce key aggs fmt bs pr = some out)
    (r : OutRow) (hr : r ∈ out.1.rows) : r.finalized = !pr := by
  cases bs with
  | nil => simp [SortAggregateTaskSpec.reduce, normalize_block_types] at h
  | cons b bs' =>
    have heq : SortAggregateTaskSpec.reduce key aggs fmt (b :: bs') pr
        = some (aggregate_combined_blocks
            (normalize_block_types (b :: bs') fmt) key aggs (!pr)) := rfl
    rw [heq] at h
    have h' := Option.some.inj h
    rw [← h'] at hr
    simp only [aggregate_combined_blocks] at hr
    rw [List.mem_map] at hr
    obtain ⟨g, hg, rfl⟩ := hr
    rfl

/-- Witness for claim C4: a concrete one-block non-partial reduction whose
single output row carries a finalized value. -/
theorem reduce_finalize_flag_witness :
    (OutRow.mk 1 [1] true).finalized = !false :=
  reduce_finalize_flag (GroupKey.col "a") [AggregateFn.count] "f"
    [Block.table ["key", "s0"] [[("key", 1), ("s0", 1)]]] false
    (ReducedBlock.mk [OutRow.mk 1 [1] true], BlockMetadata.mk 1 2)
    (by decide) (OutRow.mk 1 [1] true) (by decide)

theorem groupRuns_sound (f : Row → Int) (l : List Row) :
    ∀ g ∈ groupRuns f l, g ≠ [] ∧ ∀ x ∈ g, x ∈ l := by
  induction l with
  | nil =>
    intro g hg
    simp [groupRuns] at hg
  | cons r rs ih =>
    intro g hg
    simp only [groupRuns] at hg
    cases hrec : groupRuns f rs with
    | nil =>
      rw [hrec] at hg
      simp at hg
      subst hg
      exact ⟨List.cons_ne_nil _ _, by
        intro x hx
        rcases List.mem_singleton.mp hx with rfl
        exact List.mem_cons_self _ _⟩
    | cons g0 gs =>
      rw [hrec] at hg
      replace hg : g ∈ (if f r = f (g0.headD []) then (r :: g0) :: gs
          else [r] :: g0 :: gs) := hg
      have hg0 : g0 ∈ groupRuns f rs := by
        rw [hrec]; exact List.mem_cons_self _ _
      by_cases hf : f r = f (g0.headD [])
      · rw [if_pos hf] at hg
        rcases List.mem_cons.mp hg with rfl | hgs
        · refine ⟨List.cons_ne_nil _ _, ?_⟩
          intro x hx
          rcases List.mem_cons.mp hx with rfl | hx0
          · exact List.mem_cons_self _ _
          · exact List.mem_cons_of_mem _ ((ih g0 hg0).2 x hx0)
        · have hgmem : g ∈ groupRuns f rs := by
            rw [hrec]; exact List.mem_cons_of_mem _ hgs
          obtain ⟨hne, hsub⟩ := ih g hgmem
          exact ⟨hne, fun x hx => List.mem_cons_of_mem _ (hsub x hx)⟩
      · rw [if_neg hf] at hg
        rcases List.mem_cons.mp hg with rfl | hg2
        · refine ⟨List.cons_ne_nil _ _, ?_⟩
          intro x hx
          rcases List.mem_singleton.mp hx with rfl
          exact List.mem_cons_self _ _
        · have hgmem : g ∈ groupRuns f rs := by rw [hrec]; exact hg2
          obtain ⟨hne, hsub⟩ := ih g hgmem
          exact ⟨hne, fun x hx => List.mem_cons_of_mem _ (hsub x hx)⟩

theorem combine_key_mem (b : Block) (key : GroupKey) (aggs : List AggregateFn)
    (hk : key ≠ GroupKey.absent) (r : Row)
    (hr : r ∈ (combine b key aggs).rows) :
    ∃ h ∈ b.rows, Row.get r "key" = keyOf key h := by
  have hrows : (combine b key aggs).rows
      = (groupRuns (keyOf key) b.rows).map (fun g =>
          ("key", keyOf key (g.headD []))
            :: ((List.range aggs.length).zip aggs).map
              (fun p => (stateCol p.1, stateOf p.2 g))) := by
    cases key with
    | absent => exact absurd rfl hk
    | col c => rfl
    | cols l => rfl
    | fn n => rfl
  rw [hrows] at hr
  obtain ⟨g, hg, rfl⟩ := List.mem_map.mp hr
  obtain ⟨hne, hsub⟩ := groupRuns_sound (keyOf key) b.rows g hg
  refine ⟨g.headD [], ?_, ?_⟩
  · cases g with
    | nil => exact absurd rfl hne
    | cons y ys => exact hsub y (List.mem_cons_self _ _)
  · rfl

theorem partitionsOf_present (b : Block) (bnd : List Int) (key : GroupKey)
    (hk : key ≠ GroupKey.absent) :
    SortAggregateTaskSpec.partitionsOf b bnd key = sortAndPartition b bnd key := by
  cases key with
  | absent => exact absurd rfl hk
  | col c => rfl
  | cols l => rfl
  | fn n => rfl

/-- Claim C7: with a present key, every key value appearing in the i-th
partition block returned by `map` lies in the half-open boundary range of
partition i: `boundary[i-1] < k ≤ boundary[i]`, where `lowerOk` and
`upperOk` carry the minus-infinity and plus-infinity sentinels at the two
ends of the boundary list. -/
theorem partition_range_correct (idx onb : Nat) (block : Block) (bnd : List Int)
    (key : GroupKey) (aggs : List AggregateFn) (i : Nat) (part : Block) (r : Row)
    (hk : key ≠ GroupKey.absent)
    (hp : (SortAggregateTaskSpec.map idx block onb bnd key aggs)[i]?
      = some (Sum.inl part))
    (hr : r ∈ part.rows) :
    lowerOk bnd i (Row.get r "key") = true
      ∧ upperOk bnd i (Row.get r "key") = true := by
  have hmap : SortAggregateTaskSpec.map idx block onb bnd key aggs
      = (SortAggregateTaskSpec.partitionsOf
            (SortAggregateTaskSpec.prune_unused_columns block key aggs) bnd key).map
          (fun p => Sum.inl (combine p key aggs))
        ++ [Sum.inr (get_metadata
            (SortAggregateTaskSpec.prune_unused_columns block key aggs))] := rfl
  rw [hmap] at hp
  rcases Nat.lt_or_ge i (SortAggregateTaskSpec.partitionsOf
      (SortAggregateTaskSpec.prune_unused_columns block key aggs) bnd key).length
    with hlt | hge
  · have hpof : SortAggregateTaskSpec.partitionsOf
        (SortAggregateTaskSpec.prune_unused_columns block key aggs) bnd key
        = sortAndPartition
            (SortAggregateTaskSpec.prune_unused_columns block key aggs) bnd key :=
      partitionsOf_present _ bnd key hk
    have hlen : i < bnd.length + 1 := by
      rw [hpof] at hlt
      simpa [sortAndPartition] using hlt
    rw [List.getElem?_append_left (by simpa using hlt), List.getElem?_map] at hp
    cases hq : (SortAggregateTaskSpec.partitionsOf
        (SortAggregateTaskSpec.prune_unused_columns block key aggs) bnd key)[i]? with
    | none => rw [hq] at hp; cases hp
    | some p =>
      rw [hq] at hp
      simp only [Option.map_some', Option.some.injEq, Sum.inl.injEq] at hp
      rw [hpof] at hq
      simp only [sortAndPartition] at hq
      rw [List.getElem?_map, List.getElem?_range hlen] at hq
      simp only [Option.map_some', Option.some.injEq] at hq
      rw [← hp] at hr
      obtain ⟨h0, hh0, hkey⟩ := combine_key_mem p key aggs hk r hr
      rw [← hq] at hh0
      have hh0' : h0 ∈ (sortRows (keyOf key)
          (SortAggregateTaskSpec.prune_unused_columns block key aggs).rows).filter
            (fun row => lowerOk bnd i (keyOf key row)
              && upperOk bnd i (keyOf key row)) := hh0
      obtain ⟨_, hpred⟩ := List.mem_filter.mp hh0'
      rw [Bool.and_eq_true] at hpred
      rw [hkey]
      exact hpred
  · rw [List.getElem?_append_right (by simpa using hge)] at hp
    have hmem := List.getElem?_mem hp
    simp at hmem

/-- Witness for claim C7: in a one-row block with key 1 and boundary list
[5], the row lands in partition 0 and its key satisfies both range
checks of that partition. -/
theorem partition_range_correct_witness :
    lowerOk [5] 0 (Row.get [("key", 1), ("s0", 1)] "key") = true
      ∧ upperOk [5] 0 (Row.get [("key", 1), ("s0", 1)] "key") = true :=
  partition_range_correct 0 2 (Block.table ["a"] [[("a", 1)]]) [5]
    (GroupKey.col "a") [AggregateFn.count] 0
    (Block.table ["key", "s0"] [[("key", 1), ("s0", 1)]])
    [("key", 1), ("s0", 1)]
    (by decide) (by decide) (by decide)
